import Mathlib

/-!
Verification of the NeuroScope signal-analysis engine (`js/analysis.js`).

The engine is shallow-embedded here: JavaScript `Float64` arithmetic is
modelled by exact real arithmetic (`ℝ`), and by exact rational arithmetic
(`ℚ`) for the purely rational routines; arrays become lists or index
functions, in-place loops become folds, and `Math.floor` becomes `Int.floor`.
JavaScript out-of-range array reads (which yield `undefined`/`NaN`) are
modelled by `List.getD _ 0`; the claims under study never exercise those
reads.  Division by zero is Lean's `x / 0 = 0` convention; again no claim
depends on a zero divisor.
-/

set_option maxRecDepth 10000

namespace EEGAnalysis

/-- Source `nextPow2`: the loop `p = 1; while (p < n) p *= 2`.  The guard
`0 < p` is an invariant of the loop (it starts at 1 and doubles); it is made
explicit so the recursion terminates. -/
def nextPow2Go (n p : ℕ) : ℕ :=
  if h : 0 < p ∧ p < n then nextPow2Go n (2 * p) else p
termination_by n - p
decreasing_by omega

/-- Source `nextPow2(n)`. -/
def nextPow2 (n : ℕ) : ℕ := nextPow2Go n 1

/-- Source `getWindow(size, type)`.  The `(size - 1)` divisor is the
floating-point `size - 1`, hence computed in `ℝ`. -/
noncomputable def getWindow (size : ℕ) (type : String) : List ℝ :=
  (List.range size).map (fun (i : ℕ) =>
    if type = "hanning" then
      0.5 * (1 - Real.cos (2 * Real.pi * i / ((size : ℝ) - 1)))
    else if type = "hamming" then
      0.54 - 0.46 * Real.cos (2 * Real.pi * i / ((size : ℝ) - 1))
    else if type = "blackman" then
      0.42 - 0.5 * Real.cos (2 * Real.pi * i / ((size : ℝ) - 1))
        + 0.08 * Real.cos (4 * Real.pi * i / ((size : ℝ) - 1))
    else 1)

/-- Conditional swap of two positions of an index function, as performed by
the bit-reversal pass (`[re[i], re[j]] = [re[j], re[i]]`). -/
def swapIdx (f : ℕ → ℝ) (a b : ℕ) : ℕ → ℝ :=
  fun x => if x = a then f b else if x = b then f a else f x

/-- Source `_fftRecursive`, bit-reversal inner `while` loop:
`while (m >= 1 && j >= m) { j -= m; m >>= 1; } j += m`. -/
def jAdjust (j m : ℕ) : ℕ :=
  if h : 1 ≤ m ∧ m ≤ j then jAdjust (j - m) (m / 2) else j + m
termination_by m
decreasing_by exact Nat.div_lt_self (by omega) (by omega)

/-- State of the bit-reversal pass: the two arrays and the running
bit-reversed counter `j`. -/
def bitrevStep (N : ℕ) (st : (ℕ → ℝ) × (ℕ → ℝ) × ℕ) (i : ℕ) :
    (ℕ → ℝ) × (ℕ → ℝ) × ℕ :=
  let re := st.1
  let im := st.2.1
  let j := st.2.2
  let re' := if i < j then swapIdx re i j else re
  let im' := if i < j then swapIdx im i j else im
  (re', im', jAdjust j (N / 2))

/-- Source `_fftRecursive`, bit-reversal pass: the `for (i = 0; i < N; i++)`
loop with its conditional swap (`if (j > i)`) and counter update. -/
def bitrevPass (N : ℕ) (re im : ℕ → ℝ) : (ℕ → ℝ) × (ℕ → ℝ) :=
  let fin := (List.range N).foldl (bitrevStep N) (re, im, 0)
  (fin.1, fin.2.1)

/-- One butterfly of the inner `for (k = 0; k < halfLen; k++)` loop: the
state carries the arrays and the running twiddle `(curRe, curIm)`. -/
def butterflyStep (i halfLen : ℕ) (wRe wIm : ℝ)
    (st : (ℕ → ℝ) × (ℕ → ℝ) × ℝ × ℝ) (k : ℕ) :
    (ℕ → ℝ) × (ℕ → ℝ) × ℝ × ℝ :=
  let re := st.1
  let im := st.2.1
  let cR := st.2.2.1
  let cI := st.2.2.2
  let idx1 := i + k
  let idx2 := i + k + halfLen
  let tRe := cR * re idx2 - cI * im idx2
  let tIm := cR * im idx2 + cI * re idx2
  let re' := Function.update (Function.update re idx2 (re idx1 - tRe)) idx1 (re idx1 + tRe)
  let im' := Function.update (Function.update im idx2 (im idx1 - tIm)) idx1 (im idx1 + tIm)
  (re', im', cR * wRe - cI * wIm, cR * wIm + cI * wRe)

/-- The inner `k` loop over one block starting at `i`, with `curRe, curIm`
starting at `(1, 0)`. -/
def innerLoop (i halfLen : ℕ) (wRe wIm : ℝ) (re im : ℕ → ℝ) :
    (ℕ → ℝ) × (ℕ → ℝ) :=
  let fin := (List.range halfLen).foldl (butterflyStep i halfLen wRe wIm) (re, im, 1, 0)
  (fin.1, fin.2.1)

/-- One butterfly stage for segment length `len`: the
`for (i = 0; i < N; i += len)` loop, embedded as a fold over the block
starts `0, len, 2*len, ...` (there are `⌈N / len⌉` of them). -/
noncomputable def stagePass (N len : ℕ) (re im : ℕ → ℝ) : (ℕ → ℝ) × (ℕ → ℝ) :=
  let halfLen := len / 2
  let angle := -2 * Real.pi / (len : ℝ)
  let wRe := Real.cos angle
  let wIm := Real.sin angle
  (List.range ((N + len - 1) / len)).foldl
    (fun st blk => innerLoop (blk * len) halfLen wRe wIm st.1 st.2) (re, im)

/-- The successive stage lengths `len = 2, 4, ..., N` of the outer
`for (len = 2; len <= N; len *= 2)` loop.  The guard `2 ≤ len` is a loop
invariant made explicit for termination. -/
def stageLensGo (N len : ℕ) : List ℕ :=
  if h : 2 ≤ len ∧ len ≤ N then len :: stageLensGo N (2 * len) else []
termination_by N + 1 - len
decreasing_by omega

/-- Stage lengths of `_fftRecursive`'s butterfly loop. -/
def stageLens (N : ℕ) : List ℕ := stageLensGo N 2

/-- All butterfly stages of `_fftRecursive`. -/
noncomputable def butterflyPass (N : ℕ) (re im : ℕ → ℝ) : (ℕ → ℝ) × (ℕ → ℝ) :=
  (stageLens N).foldl (fun st len => stagePass N len st.1 st.2) (re, im)

/-- Result record of `fft`: the `{re, im, N}` object.  The arrays are index
functions; only indices below `N` are meaningful. -/
structure FFTResult where
  re : ℕ → ℝ
  im : ℕ → ℝ
  N : ℕ

/-- Source `fft(signal)`: zero-pad to the next power of two, then run the
in-place `_fftRecursive` (bit reversal followed by the butterfly stages). -/
noncomputable def fft (signal : List ℝ) : FFTResult :=
  let n := signal.length
  let N := nextPow2 n
  let re0 : ℕ → ℝ := fun i => if i < n then signal.getD i 0 else 0
  let im0 : ℕ → ℝ := fun _ => 0
  let p1 := bitrevPass N re0 im0
  let p2 := butterflyPass N p1.1 p1.2
  ⟨p2.1, p2.2, N⟩

lemma fft_two (a b : ℝ) :
    (fft [a, b]).N = 2 ∧ (fft [a, b]).re 0 = a + b ∧ (fft [a, b]).re 1 = a - b ∧
      (∀ i, (fft [a, b]).im i = 0) ∧ (∀ i, 2 ≤ i → (fft [a, b]).re i = 0) := by
  have hN : nextPow2 2 = 2 := by simp [nextPow2, nextPow2Go]
  have hrange2 : List.range 2 = [0, 1] := rfl
  have hrange1 : List.range 1 = [0] := rfl
  have hj1 : jAdjust 0 1 = 1 := by simp [jAdjust]
  have hj2 : jAdjust 1 1 = 0 := by simp [jAdjust]
  have hsl : stageLens 2 = [2] := by simp [stageLens, stageLensGo]
  refine ⟨by simp [fft, hN], ?_, ?_, ?_, ?_⟩ <;>
    simp [fft, hN, bitrevPass, hrange2, hrange1, bitrevStep, hj1, hj2,
      butterflyPass, hsl, stagePass, innerLoop, butterflyStep,
      Function.update, swapIdx]
  intro i hi
  rw [if_neg (by omega), if_neg (by omega), if_neg (by omega)]


/-- Total energy of the first `N` complex entries of the working arrays. -/
def sumE (N : ℕ) (re im : ℕ → ℝ) : ℝ :=
  ∑ x in Finset.range N, ((re x) ^ 2 + (im x) ^ 2)

lemma swapIdx_eq_comp (f : ℕ → ℝ) (a b : ℕ) :
    swapIdx f a b = fun x => f (Equiv.swap a b x) := by
  funext x
  simp only [swapIdx, Equiv.swap_apply_def]
  split_ifs <;> rfl

lemma sumE_swap (re im : ℕ → ℝ) {N a b : ℕ} (ha : a < N) (hb : b < N) :
    sumE N (swapIdx re a b) (swapIdx im a b) = sumE N re im := by
  simp only [sumE, swapIdx_eq_comp]
  refine Finset.sum_equiv (Equiv.swap a b) (fun x => ?_) (fun x hx => ?_)
  · simp only [Finset.mem_range, Equiv.swap_apply_def]
    split_ifs <;> omega
  · rfl

lemma jAdjust_bound : ∀ (m j : ℕ), jAdjust j m ≤ j ∨ jAdjust j m < 2 * m := by
  intro m
  induction m using Nat.strong_induction_on with
  | _ m ih =>
    intro j
    rw [jAdjust]
    split_ifs with h
    · rcases ih (m / 2) (Nat.div_lt_self (by omega) (by omega)) (j - m) with h1 | h1
      · left; omega
      · left; omega
    · omega

lemma jAdjust_lt {N j : ℕ} (hj : j < N) : jAdjust j (N / 2) < N := by
  rcases jAdjust_bound (N / 2) j with h | h <;> omega

lemma bitrev_fold_inv (N : ℕ) :
    ∀ (l : List ℕ) (st : (ℕ → ℝ) × (ℕ → ℝ) × ℕ),
      (∀ i ∈ l, i < N) → st.2.2 < N →
      sumE N (l.foldl (bitrevStep N) st).1 (l.foldl (bitrevStep N) st).2.1
          = sumE N st.1 st.2.1 ∧
        (l.foldl (bitrevStep N) st).2.2 < N := by
  intro l
  induction l with
  | nil => intro st _ hj; exact ⟨rfl, hj⟩
  | cons i t ih =>
    intro st hl hj
    have hiN : i < N := hl i (List.mem_cons_self i t)
    have step1 : sumE N (bitrevStep N st i).1 (bitrevStep N st i).2.1
        = sumE N st.1 st.2.1 := by
      simp only [bitrevStep]
      split_ifs with h
      · exact sumE_swap st.1 st.2.1 hiN hj
      · rfl
    have step2 : (bitrevStep N st i).2.2 < N := by
      simp only [bitrevStep]
      exact jAdjust_lt hj
    obtain ⟨e, hj'⟩ := ih (bitrevStep N st i)
      (fun x hx => hl x (List.mem_cons_of_mem i hx)) step2
    exact ⟨by rw [List.foldl_cons, e, step1], by rw [List.foldl_cons]; exact hj'⟩

lemma bitrevPass_energy (N : ℕ) (re im : ℕ → ℝ) :
    sumE N (bitrevPass N re im).1 (bitrevPass N re im).2 = sumE N re im := by
  rcases Nat.eq_zero_or_pos N with h0 | h0
  · subst h0
    simp [bitrevPass]
  · exact (bitrev_fold_inv N (List.range N) (re, im, 0)
      (fun i hi => List.mem_range.mp hi) h0).1


lemma innerFold_inv (i halfLen : ℕ) (wRe wIm : ℝ) (hh : 1 ≤ halfLen)
    (hw : wRe ^ 2 + wIm ^ 2 = 1) (re im : ℕ → ℝ) :
    ∀ (k : ℕ), k ≤ halfLen →
      (((List.range k).foldl (butterflyStep i halfLen wRe wIm) (re, im, 1, 0)).2.2.1 ^ 2
          + ((List.range k).foldl (butterflyStep i halfLen wRe wIm) (re, im, 1, 0)).2.2.2 ^ 2 = 1) ∧
      (∀ x, ¬(i ≤ x ∧ x < i + k) → ¬(i + halfLen ≤ x ∧ x < i + halfLen + k) →
        ((List.range k).foldl (butterflyStep i halfLen wRe wIm) (re, im, 1, 0)).1 x = re x ∧
        ((List.range k).foldl (butterflyStep i halfLen wRe wIm) (re, im, 1, 0)).2.1 x = im x) ∧
      (∀ m, m < k →
        ((List.range k).foldl (butterflyStep i halfLen wRe wIm) (re, im, 1, 0)).1 (i + m) ^ 2
          + ((List.range k).foldl (butterflyStep i halfLen wRe wIm) (re, im, 1, 0)).2.1 (i + m) ^ 2
          + ((List.range k).foldl (butterflyStep i halfLen wRe wIm) (re, im, 1, 0)).1 (i + m + halfLen) ^ 2
          + ((List.range k).foldl (butterflyStep i halfLen wRe wIm) (re, im, 1, 0)).2.1 (i + m + halfLen) ^ 2
          = 2 * (re (i + m) ^ 2 + im (i + m) ^ 2
              + re (i + m + halfLen) ^ 2 + im (i + m + halfLen) ^ 2)) := by
  intro k
  induction k with
  | zero =>
    intro _
    refine ⟨by norm_num, fun x _ _ => ⟨rfl, rfl⟩, fun m hm => absurd hm (by omega)⟩
  | succ k ihk =>
    intro hk1
    have hk : k ≤ halfLen := by omega
    have hklt : k < halfLen := by omega
    obtain ⟨ha, hb, hc⟩ := ihk hk
    set st := (List.range k).foldl (butterflyStep i halfLen wRe wIm) (re, im, 1, 0) with hst
    have hfold : (List.range (k + 1)).foldl (butterflyStep i halfLen wRe wIm) (re, im, 1, 0)
        = butterflyStep i halfLen wRe wIm st k := by
      rw [List.range_succ, List.foldl_append, List.foldl_cons, List.foldl_nil]
    rw [hfold]
    -- the positions touched by step k
    have hv1 : st.1 (i + k) = re (i + k) := (hb (i + k) (by omega) (by omega)).1
    have hv2 : st.2.1 (i + k) = im (i + k) := (hb (i + k) (by omega) (by omega)).2
    have hv3 : st.1 (i + k + halfLen) = re (i + k + halfLen) :=
      (hb (i + k + halfLen) (by omega) (by omega)).1
    have hv4 : st.2.1 (i + k + halfLen) = im (i + k + halfLen) :=
      (hb (i + k + halfLen) (by omega) (by omega)).2
    refine ⟨?_, ?_, ?_⟩
    · show (st.2.2.1 * wRe - st.2.2.2 * wIm) ^ 2 + (st.2.2.1 * wIm + st.2.2.2 * wRe) ^ 2 = 1
      have : (st.2.2.1 * wRe - st.2.2.2 * wIm) ^ 2 + (st.2.2.1 * wIm + st.2.2.2 * wRe) ^ 2
          = (st.2.2.1 ^ 2 + st.2.2.2 ^ 2) * (wRe ^ 2 + wIm ^ 2) := by ring
      rw [this, ha, hw, one_mul]
    · intro x hx1 hx2
      have hne1 : x ≠ i + k := by omega
      have hne2 : x ≠ i + k + halfLen := by omega
      simp only [butterflyStep, Function.update_noteq hne1, Function.update_noteq hne2]
      exact hb x (by omega) (by omega)
    · intro m hm
      rcases Nat.lt_or_ge m k with hmk | hmk
      · -- earlier pairs untouched by step k
        have hne1 : i + m ≠ i + k := by omega
        have hne2 : i + m ≠ i + k + halfLen := by omega
        have hne3 : i + m + halfLen ≠ i + k := by omega
        have hne4 : i + m + halfLen ≠ i + k + halfLen := by omega
        simp only [butterflyStep, Function.update_noteq hne1, Function.update_noteq hne2,
          Function.update_noteq hne3, Function.update_noteq hne4]
        exact hc m hmk
      · -- m = k: the freshly processed pair
        have hmeq : m = k := by omega
        subst hmeq
        have hne : i + m + halfLen ≠ i + m := by omega
        simp only [butterflyStep, Function.update_same, Function.update_noteq hne,
          Function.update_same]
        rw [hv1, hv2, hv3, hv4]
        have ht : (st.2.2.1 * re (i + m + halfLen) - st.2.2.2 * im (i + m + halfLen)) ^ 2
            + (st.2.2.1 * im (i + m + halfLen) + st.2.2.2 * re (i + m + halfLen)) ^ 2
            = re (i + m + halfLen) ^ 2 + im (i + m + halfLen) ^ 2 := by
          have hexp : (st.2.2.1 * re (i + m + halfLen) - st.2.2.2 * im (i + m + halfLen)) ^ 2
              + (st.2.2.1 * im (i + m + halfLen) + st.2.2.2 * re (i + m + halfLen)) ^ 2
              = (st.2.2.1 ^ 2 + st.2.2.2 ^ 2)
                * (re (i + m + halfLen) ^ 2 + im (i + m + halfLen) ^ 2) := by ring
          rw [hexp, ha, one_mul]
        linear_combination 2 * ht


lemma innerLoop_untouched (i halfLen : ℕ) (wRe wIm : ℝ) (hh : 1 ≤ halfLen)
    (hw : wRe ^ 2 + wIm ^ 2 = 1) (re im : ℕ → ℝ) :
    ∀ x, (x < i ∨ i + 2 * halfLen ≤ x) →
      (innerLoop i halfLen wRe wIm re im).1 x = re x ∧
      (innerLoop i halfLen wRe wIm re im).2 x = im x := by
  intro x hx
  have h := (innerFold_inv i halfLen wRe wIm hh hw re im halfLen le_rfl).2.1 x
    (by omega) (by omega)
  exact ⟨h.1, h.2⟩

lemma innerLoop_pairE (i halfLen : ℕ) (wRe wIm : ℝ) (hh : 1 ≤ halfLen)
    (hw : wRe ^ 2 + wIm ^ 2 = 1) (re im : ℕ → ℝ) :
    ∀ m, m < halfLen →
      (innerLoop i halfLen wRe wIm re im).1 (i + m) ^ 2
        + (innerLoop i halfLen wRe wIm re im).2 (i + m) ^ 2
        + (innerLoop i halfLen wRe wIm re im).1 (i + m + halfLen) ^ 2
        + (innerLoop i halfLen wRe wIm re im).2 (i + m + halfLen) ^ 2
      = 2 * (re (i + m) ^ 2 + im (i + m) ^ 2
          + re (i + m + halfLen) ^ 2 + im (i + m + halfLen) ^ 2) := by
  intro m hm
  exact (innerFold_inv i halfLen wRe wIm hh hw re im halfLen le_rfl).2.2 m hm

lemma innerLoop_blockE (i halfLen : ℕ) (wRe wIm : ℝ) (hh : 1 ≤ halfLen)
    (hw : wRe ^ 2 + wIm ^ 2 = 1) (re im : ℕ → ℝ) :
    ∑ x in Finset.Ico i (i + 2 * halfLen),
        ((innerLoop i halfLen wRe wIm re im).1 x ^ 2
          + (innerLoop i halfLen wRe wIm re im).2 x ^ 2)
      = 2 * ∑ x in Finset.Ico i (i + 2 * halfLen), (re x ^ 2 + im x ^ 2) := by
  have hsplit : ∀ (f : ℕ → ℝ),
      ∑ x in Finset.Ico i (i + 2 * halfLen), f x
        = (∑ m in Finset.range halfLen, f (i + m))
          + ∑ m in Finset.range halfLen, f (i + m + halfLen) := by
    intro f
    rw [← Finset.sum_Ico_consecutive f (by omega : i ≤ i + halfLen)
      (by omega : i + halfLen ≤ i + 2 * halfLen)]
    congr 1
    · rw [Finset.sum_Ico_eq_sum_range]
      simp only [Nat.add_sub_cancel_left]
    · rw [Finset.sum_Ico_eq_sum_range]
      have : i + 2 * halfLen - (i + halfLen) = halfLen := by omega
      rw [this]
      refine Finset.sum_congr rfl (fun m _ => ?_)
      have : i + halfLen + m = i + m + halfLen := by omega
      rw [this]
  rw [hsplit, hsplit, mul_add, Finset.mul_sum, Finset.mul_sum,
    ← Finset.sum_add_distrib, ← Finset.sum_add_distrib]
  refine Finset.sum_congr rfl (fun m hm => ?_)
  have h := innerLoop_pairE i halfLen wRe wIm hh hw re im m (Finset.mem_range.mp hm)
  linarith


lemma stage_fold_inv (len halfLen : ℕ) (wRe wIm : ℝ) (hh : 1 ≤ halfLen)
    (hlen : len = 2 * halfLen) (hw : wRe ^ 2 + wIm ^ 2 = 1) (re im : ℕ → ℝ) :
    ∀ (B : ℕ),
      (∀ x, B * len ≤ x →
        ((List.range B).foldl
            (fun st blk => innerLoop (blk * len) halfLen wRe wIm st.1 st.2) (re, im)).1 x = re x ∧
        ((List.range B).foldl
            (fun st blk => innerLoop (blk * len) halfLen wRe wIm st.1 st.2) (re, im)).2 x = im x) ∧
      (∑ x in Finset.range (B * len),
          (((List.range B).foldl
              (fun st blk => innerLoop (blk * len) halfLen wRe wIm st.1 st.2) (re, im)).1 x ^ 2
            + ((List.range B).foldl
              (fun st blk => innerLoop (blk * len) halfLen wRe wIm st.1 st.2) (re, im)).2 x ^ 2)
        = 2 * ∑ x in Finset.range (B * len), (re x ^ 2 + im x ^ 2)) := by
  intro B
  induction B with
  | zero => exact ⟨fun x _ => ⟨rfl, rfl⟩, by simp⟩
  | succ B ih =>
    obtain ⟨hu, he⟩ := ih
    set r := (List.range B).foldl
      (fun st blk => innerLoop (blk * len) halfLen wRe wIm st.1 st.2) (re, im) with hr
    have hfold : (List.range (B + 1)).foldl
        (fun st blk => innerLoop (blk * len) halfLen wRe wIm st.1 st.2) (re, im)
        = innerLoop (B * len) halfLen wRe wIm r.1 r.2 := by
      rw [List.range_succ, List.foldl_append, List.foldl_cons, List.foldl_nil]
    rw [hfold]
    have hunt := innerLoop_untouched (B * len) halfLen wRe wIm hh hw r.1 r.2
    constructor
    · intro x hx
      have hx2 : B * len + 2 * halfLen ≤ x := by
        rw [← hlen]
        calc B * len + len = (B + 1) * len := by ring
        _ ≤ x := hx
      obtain ⟨h1, h2⟩ := hunt x (Or.inr hx2)
      have hx3 : B * len ≤ x := by omega
      exact ⟨h1.trans (hu x hx3).1, h2.trans (hu x hx3).2⟩
    · have hsucc : (B + 1) * len = B * len + len := by ring
      have hico : ∀ (f : ℕ → ℝ), ∑ x in Finset.range (B * len + len), f x
          = (∑ x in Finset.range (B * len), f x)
            + ∑ x in Finset.Ico (B * len) (B * len + len), f x := by
        intro f
        rw [Finset.range_eq_Ico]
        rw [← Finset.sum_Ico_consecutive f (Nat.zero_le (B * len))
            (by omega : B * len ≤ B * len + len)]
      rw [hsucc, hico, hico]
      have part1 : ∑ x in Finset.range (B * len),
          ((innerLoop (B * len) halfLen wRe wIm r.1 r.2).1 x ^ 2
            + (innerLoop (B * len) halfLen wRe wIm r.1 r.2).2 x ^ 2)
          = 2 * ∑ x in Finset.range (B * len), (re x ^ 2 + im x ^ 2) := by
        rw [← he]
        refine Finset.sum_congr rfl (fun x hx => ?_)
        obtain ⟨h1, h2⟩ := hunt x (Or.inl (Finset.mem_range.mp hx))
        rw [h1, h2]
      have part2 : ∑ x in Finset.Ico (B * len) (B * len + len),
          ((innerLoop (B * len) halfLen wRe wIm r.1 r.2).1 x ^ 2
            + (innerLoop (B * len) halfLen wRe wIm r.1 r.2).2 x ^ 2)
          = 2 * ∑ x in Finset.Ico (B * len) (B * len + len), (re x ^ 2 + im x ^ 2) := by
        have hlen2 : B * len + len = B * len + 2 * halfLen := by omega
        rw [hlen2]
        rw [innerLoop_blockE (B * len) halfLen wRe wIm hh hw r.1 r.2]
        congr 1
        refine Finset.sum_congr rfl (fun x hx => ?_)
        obtain ⟨hx1, _⟩ := Finset.mem_Ico.mp hx
        obtain ⟨h1, h2⟩ := hu x hx1
        rw [h1, h2]
      rw [part1, part2]
      ring


lemma stagePass_energy (N len : ℕ) (re im : ℕ → ℝ) (hlen2 : 2 ≤ len)
    (heven : len % 2 = 0) (hdvd : len ∣ N) :
    sumE N (stagePass N len re im).1 (stagePass N len re im).2
      = 2 * sumE N re im := by
  obtain ⟨q, hq⟩ := hdvd
  have hlen0 : 0 < len := by omega
  have hcount : (N + len - 1) / len = q := by
    subst hq
    have h1 : len * q + len - 1 = len * q + (len - 1) := by omega
    rw [h1, Nat.mul_add_div hlen0, Nat.div_eq_of_lt (by omega), Nat.add_zero]
  have hhalf : 1 ≤ len / 2 := by omega
  have hlen : len = 2 * (len / 2) := by omega
  have hw : Real.cos (-2 * Real.pi / (len : ℝ)) ^ 2
      + Real.sin (-2 * Real.pi / (len : ℝ)) ^ 2 = 1 := Real.cos_sq_add_sin_sq _
  have h := stage_fold_inv len (len / 2) (Real.cos (-2 * Real.pi / (len : ℝ)))
    (Real.sin (-2 * Real.pi / (len : ℝ))) hhalf hlen hw re im q
  have hNq : N = q * len := by rw [hq]; ring
  show sumE N _ _ = _
  simp only [stagePass, hcount]
  unfold sumE
  rw [hNq]
  exact h.2

lemma stageLensGo_mem : ∀ (N s len : ℕ), len ∈ stageLensGo N s →
    (∃ t, len = s * 2 ^ t) ∧ 2 ≤ len ∧ len ≤ N := by
  intro N
  have H : ∀ (d s len : ℕ), N + 1 - s ≤ d → len ∈ stageLensGo N s →
      (∃ t, len = s * 2 ^ t) ∧ 2 ≤ len ∧ len ≤ N := by
    intro d
    induction d with
    | zero =>
      intro s len hd hmem
      rw [stageLensGo] at hmem
      split_ifs at hmem with h
      · omega
      · simp at hmem
    | succ d ih =>
      intro s len hd hmem
      rw [stageLensGo] at hmem
      split_ifs at hmem with h
      · rcases List.mem_cons.mp hmem with heq | hmem'
        · exact ⟨⟨0, by omega⟩, by omega, by omega⟩
        · obtain ⟨⟨t, ht⟩, h2, h3⟩ := ih (2 * s) len (by omega) hmem'
          exact ⟨⟨t + 1, by rw [ht]; ring⟩, h2, h3⟩
      · simp at hmem
  exact fun s len => H (N + 1 - s) s len le_rfl

lemma stageLensGo_length : ∀ (d K j : ℕ), K + 1 - j ≤ d → 1 ≤ j →
    j ≤ K + 1 → (stageLensGo (2 ^ K) (2 ^ j)).length = K + 1 - j := by
  intro d
  induction d with
  | zero =>
    intro K j hd h1 h2
    have hj : j = K + 1 := by omega
    subst hj
    rw [stageLensGo]
    rw [dif_neg]
    · simp
    · intro hcon
      have := hcon.2
      have : ¬ (2 : ℕ) ^ (K + 1) ≤ 2 ^ K :=
        Nat.not_le.mpr (Nat.pow_lt_pow_right (by omega) (by omega))
      omega
  | succ d ih =>
    intro K j hd h1 h2
    rcases Nat.lt_or_ge K (j) with hKj | hKj
    · have hj : j = K + 1 := by omega
      subst hj
      rw [stageLensGo, dif_neg]
      · simp
      · intro hcon
        have := hcon.2
        have : ¬ (2 : ℕ) ^ (K + 1) ≤ 2 ^ K :=
          Nat.not_le.mpr (Nat.pow_lt_pow_right (by omega) (by omega))
        omega
    · -- j ≤ K: the guard holds
      rw [stageLensGo, dif_pos]
      · rw [List.length_cons]
        have h2s : (2 : ℕ) * 2 ^ j = 2 ^ (j + 1) := by ring
        rw [h2s, ih K (j + 1) (by omega) (by omega) (by omega)]
        omega
      · constructor
        · calc (2 : ℕ) = 2 ^ 1 := by norm_num
          _ ≤ 2 ^ j := Nat.pow_le_pow_right (by omega) h1
        · exact Nat.pow_le_pow_right (by omega) hKj

lemma stageLens_length (K : ℕ) : (stageLens (2 ^ K)).length = K := by
  have h := stageLensGo_length (K + 1 - 1) K 1 le_rfl le_rfl (by omega)
  simpa [stageLens] using h

lemma butterflyPass_energy (K : ℕ) (re im : ℕ → ℝ) :
    sumE (2 ^ K) (butterflyPass (2 ^ K) re im).1 (butterflyPass (2 ^ K) re im).2
      = (2 ^ K : ℝ) * sumE (2 ^ K) re im := by
  set N := 2 ^ K with hN
  have key : ∀ (l : List ℕ) (re im : ℕ → ℝ),
      (∀ len ∈ l, 2 ≤ len ∧ len % 2 = 0 ∧ len ∣ N) →
      sumE N (l.foldl (fun st len => stagePass N len st.1 st.2) (re, im)).1
          (l.foldl (fun st len => stagePass N len st.1 st.2) (re, im)).2
        = (2 ^ l.length : ℝ) * sumE N re im := by
    intro l
    induction l with
    | nil => intro re im _; simp
    | cons len t ih =>
      intro re im hmem
      obtain ⟨h2, hev, hdvd⟩ := hmem len (List.mem_cons_self len t)
      rw [List.foldl_cons]
      have hstage := stagePass_energy N len re im h2 hev hdvd
      rw [ih (stagePass N len re im).1 (stagePass N len re im).2
        (fun x hx => hmem x (List.mem_cons_of_mem len hx))]
      rw [hstage, List.length_cons]
      ring
  have hmem : ∀ len ∈ stageLens N, 2 ≤ len ∧ len % 2 = 0 ∧ len ∣ N := by
    intro len hlen
    obtain ⟨⟨t, ht⟩, h2, h3⟩ := stageLensGo_mem N 2 len hlen
    refine ⟨h2, by omega, ?_⟩
    have hpow : len = 2 ^ (t + 1) := by rw [ht]; ring
    have hle : t + 1 ≤ K := by
      by_contra hcon
      push_neg at hcon
      have : (2 : ℕ) ^ K < 2 ^ (t + 1) := Nat.pow_lt_pow_right (by omega) hcon
      omega
    rw [hpow, hN]
    exact pow_dvd_pow 2 hle
  have := key (stageLens N) re im hmem
  rw [show (stageLens N).length = K from stageLens_length K] at this
  unfold butterflyPass
  convert this using 3


lemma nextPow2Go_spec : ∀ (n p : ℕ), 0 < p → (∃ t, p = 2 ^ t) →
    (∃ K, nextPow2Go n p = 2 ^ K) ∧ n ≤ nextPow2Go n p := by
  intro n
  have H : ∀ (d p : ℕ), n - p ≤ d → 0 < p → (∃ t, p = 2 ^ t) →
      (∃ K, nextPow2Go n p = 2 ^ K) ∧ n ≤ nextPow2Go n p := by
    intro d
    induction d with
    | zero =>
      intro p hd h0 ht
      rw [nextPow2Go, dif_neg (by omega)]
      exact ⟨ht, by omega⟩
    | succ d ih =>
      intro p hd h0 ht
      rw [nextPow2Go]
      split_ifs with h
      · obtain ⟨t, htp⟩ := ht
        exact ih (2 * p) (by omega) (by omega) ⟨t + 1, by rw [htp]; ring⟩
      · exact ⟨ht, by omega⟩
  exact fun p => H (n - p) p le_rfl

lemma nextPow2_spec (n : ℕ) : (∃ K, nextPow2 n = 2 ^ K) ∧ n ≤ nextPow2 n :=
  nextPow2Go_spec n 1 (by omega) ⟨0, rfl⟩

lemma sum_range_getD_sq (l : List ℝ) :
    ∑ i in Finset.range l.length, (l.getD i 0) ^ 2 = (l.map (fun x => x ^ 2)).sum := by
  induction l with
  | nil => simp
  | cons a t ih =>
    rw [List.length_cons, Finset.sum_range_succ']
    simp only [List.getD_cons_succ, List.getD_cons_zero, List.map_cons, List.sum_cons]
    rw [ih]
    ring

/-- Claim C3: Parseval energy consistency.  For every input signal, with
`{re, im, N} = fft(signal)`, the sum over all `N` output bins of
`re[i]^2 + im[i]^2` equals `N` times the sum of squares of the input
samples (exact in real arithmetic, which models the floating-point
tolerance of the specification). -/
theorem fft_parseval (signal : List ℝ) :
    ∑ i in Finset.range (fft signal).N,
        ((fft signal).re i ^ 2 + (fft signal).im i ^ 2)
      = ((fft signal).N : ℝ) * (signal.map (fun x => x ^ 2)).sum := by
  obtain ⟨⟨K, hK⟩, hle⟩ := nextPow2_spec signal.length
  have hre : (fft signal).re = (butterflyPass (nextPow2 signal.length)
      (bitrevPass (nextPow2 signal.length)
        (fun i => if i < signal.length then signal.getD i 0 else 0) (fun _ => 0)).1
      (bitrevPass (nextPow2 signal.length)
        (fun i => if i < signal.length then signal.getD i 0 else 0) (fun _ => 0)).2).1 := rfl
  have him : (fft signal).im = (butterflyPass (nextPow2 signal.length)
      (bitrevPass (nextPow2 signal.length)
        (fun i => if i < signal.length then signal.getD i 0 else 0) (fun _ => 0)).1
      (bitrevPass (nextPow2 signal.length)
        (fun i => if i < signal.length then signal.getD i 0 else 0) (fun _ => 0)).2).2 := rfl
  have hNN : (fft signal).N = nextPow2 signal.length := rfl
  rw [hre, him, hNN, hK]
  have hbfly := butterflyPass_energy K
    (bitrevPass (2 ^ K)
      (fun i => if i < signal.length then signal.getD i 0 else 0) (fun _ => 0)).1
    (bitrevPass (2 ^ K)
      (fun i => if i < signal.length then signal.getD i 0 else 0) (fun _ => 0)).2
  have hbit := bitrevPass_energy (2 ^ K)
    (fun i => if i < signal.length then signal.getD i 0 else 0) (fun _ => 0)
  have hinit : sumE (2 ^ K)
      (fun i => if i < signal.length then signal.getD i 0 else 0) (fun _ => 0)
      = (signal.map (fun x => x ^ 2)).sum := by
    unfold sumE
    calc ∑ x in Finset.range (2 ^ K),
          ((if x < signal.length then signal.getD x 0 else 0) ^ 2 + (0 : ℝ) ^ 2)
        = ∑ x in Finset.range (2 ^ K),
            (if x < signal.length then (signal.getD x 0) ^ 2 else 0) := by
          refine Finset.sum_congr rfl (fun x _ => ?_)
          split_ifs <;> norm_num
      _ = ∑ x in Finset.range signal.length,
            (if x < signal.length then (signal.getD x 0) ^ 2 else 0) :=
          (Finset.sum_subset (Finset.range_subset.mpr (hK ▸ hle))
            (fun x _ hx => if_neg (fun hcon => hx (Finset.mem_range.mpr hcon)))).symm
      _ = ∑ x in Finset.range signal.length, (signal.getD x 0) ^ 2 :=
          Finset.sum_congr rfl (fun x hx => if_pos (Finset.mem_range.mp hx))
      _ = (signal.map (fun x => x ^ 2)).sum := sum_range_getD_sq signal
  calc ∑ i in Finset.range (2 ^ K), _ = sumE (2 ^ K) _ _ := rfl
  _ = (2 ^ K : ℝ) * sumE (2 ^ K) _ _ := hbfly
  _ = (2 ^ K : ℝ) * (signal.map (fun x => x ^ 2)).sum := by rw [hbit, hinit]
  _ = ((2 ^ K : ℕ) : ℝ) * (signal.map (fun x => x ^ 2)).sum := by push_cast; ring


/-- A `{freqs, psd}` spectral pair as returned by the PSD routines. -/
structure PSDResult where
  freqs : List ℝ
  psd : List ℝ

/-- Signal sample at a (possibly negative) index, as read by `welchPSD`'s
segment loop (`signal[start + i]`).  A JavaScript out-of-range read yields
`undefined` (then `NaN`); it is modelled as 0 here, and no claim under study
reaches an out-of-range read. -/
noncomputable def sigAt (signal : List ℝ) (k : ℤ) : ℝ :=
  if 0 ≤ k ∧ k < (signal.length : ℤ) then signal.getD k.toNat 0 else 0

/-- The windowed, zero-padded buffer built by `directPSD` before its FFT. -/
noncomputable def directWindowed (signal : List ℝ) (windowType : String) : List ℝ :=
  (List.range (nextPow2 signal.length)).map (fun i =>
    if i < signal.length then
      signal.getD i 0 * (getWindow signal.length windowType).getD i 0
    else 0)

/-- Source `directPSD(signal, sampleRate, windowType)`: a single windowed
periodogram.  Every bin `0 ≤ i ≤ N/2` is `2*|FFT[i]|^2 / (sampleRate*n)`;
note the source applies no halving to the DC or Nyquist bin here. -/
noncomputable def directPSD (signal : List ℝ) (sampleRate : ℝ)
    (windowType : String) : PSDResult :=
  let n := signal.length
  let N := nextPow2 n
  let F := fft (directWindowed signal windowType)
  let freqRes := sampleRate / N
  { freqs := (List.range (N / 2 + 1)).map (fun (i : ℕ) => (i : ℝ) * freqRes),
    psd := (List.range (N / 2 + 1)).map (fun i =>
      (2 * ((F.re i) ^ 2 + (F.im i) ^ 2)) / (sampleRate * n)) }

/-- Source `welchPSD`'s `step = Math.floor(windowSize * (1 - overlap))`. -/
noncomputable def welchStep (windowSize : ℕ) (overlap : ℝ) : ℤ :=
  ⌊(windowSize : ℝ) * (1 - overlap)⌋

/-- Source `welchPSD`'s
`numSegments = Math.floor((n - windowSize) / step) + 1`. -/
noncomputable def welchNumSegments (n windowSize : ℕ) (overlap : ℝ) : ℤ :=
  ⌊((n : ℝ) - (windowSize : ℝ)) / ((welchStep windowSize overlap : ℤ) : ℝ)⌋ + 1

/-- One windowed, zero-padded Welch segment (`segData`). -/
noncomputable def welchSegData (signal window : List ℝ) (windowSize N : ℕ)
    (start : ℤ) : List ℝ :=
  (List.range N).map (fun i =>
    if i < windowSize then sigAt signal (start + i) * window.getD i 0 else 0)

/-- The segmented branch of `welchPSD` (taken when `numSegments ≥ 1`):
accumulate `|FFT|^2` over the segments, normalize by
`numSegments * sampleRate * windowPower * windowSize`, double for the
one-sided spectrum, then halve the DC bin and the `N/2` bin in place.
The source's `seg` loop accumulates `psd[i] += mag2` per segment; that
running accumulation is written as the equivalent per-bin sum over the
segment indices. -/
noncomputable def welchPSDMain (signal : List ℝ) (sampleRate : ℝ)
    (windowSize : ℕ) (overlap : ℝ) (windowType : String) : PSDResult :=
  let step := welchStep windowSize overlap
  let numSegments := welchNumSegments signal.length windowSize overlap
  let N := nextPow2 windowSize
  let window := getWindow windowSize windowType
  let windowPower := ((window.map (fun w => w * w)).sum) / (windowSize : ℝ)
  let psdRaw : ℕ → ℝ := fun i =>
    ∑ seg in Finset.range numSegments.toNat,
      ((fft (welchSegData signal window windowSize N (seg * step))).re i ^ 2
        + (fft (welchSegData signal window windowSize N (seg * step))).im i ^ 2)
  let freqRes := sampleRate / N
  let psd0 := (List.range (N / 2 + 1)).map (fun i =>
    (2 * psdRaw i) / ((numSegments.toNat : ℝ) * sampleRate * windowPower * windowSize))
  let psd1 := psd0.set 0 (psd0.getD 0 0 / 2)
  let psd2 := if N / 2 < psd1.length then psd1.set (N / 2) (psd1.getD (N / 2) 0 / 2)
    else psd1
  { freqs := (List.range (N / 2 + 1)).map (fun (i : ℕ) => (i : ℝ) * freqRes),
    psd := psd2 }

/-- Source `welchPSD(signal, sampleRate, windowSize, overlap, windowType)`:
falls back to a direct periodogram when fewer than one full segment fits. -/
noncomputable def welchPSD (signal : List ℝ) (sampleRate : ℝ) (windowSize : ℕ)
    (overlap : ℝ) (windowType : String) : PSDResult :=
  if welchNumSegments signal.length windowSize overlap < 1 then
    directPSD signal sampleRate windowType
  else
    welchPSDMain signal sampleRate windowSize overlap windowType

/-- The `{spectrogram, times, freqs}` triple of `computeSpectrogram`. -/
structure SpectrogramResult where
  spectrogram : List (List ℝ)
  times : List ℝ
  freqs : List ℝ

/-- One windowed, zero-padded STFT frame buffer (`segData`); frame starts
are natural numbers here since the spectrogram's step is clamped to `≥ 1`. -/
noncomputable def specSegData (signal window : List ℝ) (windowSize N start : ℕ) :
    List ℝ :=
  (List.range N).map (fun i =>
    if i < windowSize then signal.getD (start + i) 0 * window.getD i 0 else 0)

/-- Source `computeSpectrogram(signal, sampleRate, windowSize, overlap,
maxFreq)`: short-time Fourier transform with per-bin log power
`10*log10(mag^2/N + 1e-20)`.  The `!signal` guard of the source cannot be
modelled (a list is never null) and is subsumed by the length check. -/
noncomputable def computeSpectrogram (signal : List ℝ) (sampleRate : ℝ)
    (windowSize : ℕ) (overlap : ℝ) (maxFreq : ℝ) : SpectrogramResult :=
  let step : ℕ := max 1 (⌊(windowSize : ℝ) * (1 - overlap)⌋.toNat)
  let n := signal.length
  if n < windowSize then ⟨[], [], []⟩
  else
    let numFrames : ℕ := (max 0 (⌊((n : ℝ) - (windowSize : ℝ)) / (step : ℝ)⌋ + 1)).toNat
    let N := nextPow2 windowSize
    let window := getWindow windowSize "hanning"
    let freqRes := sampleRate / N
    let maxBin : ℤ := min ⌊maxFreq / freqRes⌋ ((N : ℤ) / 2)
    let numFreqBins := (maxBin + 1).toNat
    let freqs := (List.range numFreqBins).map (fun (i : ℕ) => (i : ℝ) * freqRes)
    let times := (List.range numFrames).map (fun (frame : ℕ) =>
      ((frame * step : ℕ) : ℝ) / sampleRate)
    let spectrogram := (List.range numFrames).map (fun frame =>
      (List.range numFreqBins).map (fun i =>
        10 * Real.logb 10
          (((fft (specSegData signal window windowSize N (frame * step))).re i ^ 2
            + (fft (specSegData signal window windowSize N (frame * step))).im i ^ 2)
              / (N : ℝ) + 1e-20)))
    ⟨spectrogram, times, freqs⟩


/-- Claim C4 (amended): when the segment count
`floor((n - windowSize)/step) + 1` is below 1 (signal shorter than one
window), `welchPSD` returns exactly `directPSD(signal, sampleRate,
windowType)`.  (The converse of the original claim fails; see the
counterexample.) -/
theorem welchPSD_short_fallback (signal : List ℝ) (sampleRate : ℝ)
    (windowSize : ℕ) (overlap : ℝ) (windowType : String)
    (h : welchNumSegments signal.length windowSize overlap < 1) :
    welchPSD signal sampleRate windowSize overlap windowType
      = directPSD signal sampleRate windowType := by
  unfold welchPSD
  rw [if_pos h]

/-- Witness for C4: a one-sample signal with a 2-sample window has
`numSegments = 0 < 1` and falls back to the direct periodogram. -/
theorem welchPSD_short_fallback_witness :
    welchNumSegments 1 2 (1/2) < 1 ∧
      welchPSD [(5 : ℝ)] 1 2 (1/2) "rectangular" = directPSD [(5 : ℝ)] 1 "rectangular" := by
  have h : welchNumSegments 1 2 (1/2) < 1 := by
    have hstep : welchStep 2 (1/2) = 1 := by
      unfold welchStep
      norm_num
    unfold welchNumSegments
    rw [hstep]
    norm_num
  exact ⟨h, welchPSD_short_fallback [(5 : ℝ)] 1 2 (1/2) "rectangular" h⟩


lemma nextPow2_two : nextPow2 2 = 2 := by
  simp [nextPow2, nextPow2Go]

lemma zeroPair_getD (x : ℕ) : ([(0 : ℝ), 0]).getD x 0 = 0 := by
  rcases x with _ | _ | x <;> rfl

lemma zeroPair_getElem (x : ℕ) : (([(0 : ℝ), 0])[x]?).getD 0 = 0 := by
  rcases x with _ | _ | x <;> rfl

lemma welchSegData_zeroPair (win : List ℝ) (start : ℤ) :
    welchSegData [(0 : ℝ), 0] win 2 2 start = [0, 0] := by
  simp [welchSegData, sigAt, zeroPair_getD, zeroPair_getElem, show List.range 2 = [0, 1] from rfl]

lemma fft_zeroPair_re (i : ℕ) : (fft [(0 : ℝ), 0]).re i = 0 := by
  have hf := fft_two (0 : ℝ) 0
  rcases i with _ | _ | i
  · simpa using hf.2.1
  · simpa using hf.2.2.1
  · exact hf.2.2.2.2 (i + 2) (by omega)

lemma fft_zeroPair_im (i : ℕ) : (fft [(0 : ℝ), 0]).im i = 0 :=
  (fft_two (0 : ℝ) 0).2.2.2.1 i

/-- Counterexample to C4's "only if" direction: with a two-sample zero
signal and a two-sample window, `numSegments = 1 ≥ 1`, yet `welchPSD`
returns exactly the same `{freqs, psd}` value as `directPSD`. -/
theorem welchPSD_fallback_not_iff :
    ¬ (welchNumSegments 2 2 (1/2) < 1) ∧
      welchPSD [(0 : ℝ), 0] 1 2 (1/2) "rectangular"
        = directPSD [(0 : ℝ), 0] 1 "rectangular" := by
  have hstep : welchStep 2 (1/2) = 1 := by
    unfold welchStep
    norm_num
  have hnum : welchNumSegments 2 2 (1/2) = 1 := by
    unfold welchNumSegments
    rw [hstep]
    norm_num
  have hW : welchPSD [(0 : ℝ), 0] 1 2 (1/2) "rectangular"
      = ⟨[0, 1/2], [0, 0]⟩ := by
    unfold welchPSD
    rw [if_neg (by rw [show ([(0:ℝ), 0] : List ℝ).length = 2 from rfl, hnum]; norm_num)]
    unfold welchPSDMain
    simp only [show ([(0:ℝ), 0] : List ℝ).length = 2 from rfl, hnum, hstep,
      nextPow2_two, welchSegData_zeroPair, fft_zeroPair_re, fft_zeroPair_im]
    norm_num [show List.range 2 = [0, 1] from rfl, List.set]
  have hD : directPSD [(0 : ℝ), 0] 1 "rectangular" = ⟨[0, 1/2], [0, 0]⟩ := by
    have hwin : directWindowed [(0 : ℝ), 0] "rectangular" = [0, 0] := by
      simp [directWindowed, zeroPair_getD, zeroPair_getElem, nextPow2_two,
        show List.range 2 = [0, 1] from rfl]
    unfold directPSD
    simp only [show ([(0:ℝ), 0] : List ℝ).length = 2 from rfl, hwin,
      nextPow2_two, fft_zeroPair_re, fft_zeroPair_im]
    norm_num [show List.range 2 = [0, 1] from rfl]
  refine ⟨by rw [hnum]; norm_num, hW.trans hD.symm⟩


lemma getD_map_range (n : ℕ) (f : ℕ → ℝ) (i : ℕ) (d : ℝ) (h : i < n) :
    ((List.range n).map f).getD i d = f i := by
  rw [List.getD_eq_getElem?_getD, List.getElem?_map, List.getElem?_range h]
  rfl

/-- Counterexample to C1: for the signal `[1, 1]` with `sampleRate = 1` and
a rectangular window, the DC bin of `directPSD` is `4`, not the claimed
`|FFT[0]|^2/(sampleRate*n) = 2`: the source halves no boundary bin in
`directPSD`. -/
theorem directPSD_dc_not_halved :
    (directPSD [(1 : ℝ), 1] 1 "rectangular").psd.getD 0 0
      ≠ ((fft (directWindowed [(1 : ℝ), 1] "rectangular")).re 0 ^ 2
          + (fft (directWindowed [(1 : ℝ), 1] "rectangular")).im 0 ^ 2)
        / (1 * ([(1 : ℝ), 1].length : ℝ)) := by
  have hwin : directWindowed [(1 : ℝ), 1] "rectangular" = [1, 1] := by
    simp +decide [directWindowed, nextPow2_two, getWindow,
      show List.range 2 = [0, 1] from rfl]
  have hre := (fft_two (1 : ℝ) 1).2.1
  have him := (fft_two (1 : ℝ) 1).2.2.2.1 0
  have hpsd : (directPSD [(1 : ℝ), 1] 1 "rectangular").psd.getD 0 0 = 4 := by
    unfold directPSD
    simp only [show ([(1 : ℝ), 1] : List ℝ).length = 2 from rfl, nextPow2_two, hwin]
    rw [getD_map_range _ _ _ _ (by norm_num)]
    rw [hre, him]
    norm_num
  rw [hpsd, hwin, hre, him]
  norm_num

/-- Claim C1 (amended): for every non-empty signal and `sampleRate > 0`,
every `directPSD` output bin `0 ≤ i ≤ N/2` — including the DC and Nyquist
bins — equals `2*|FFT[i]|^2/(sampleRate*n)`; `directPSD` applies the
one-sided doubling uniformly, with no boundary-bin halving. -/
theorem directPSD_bin_formula (signal : List ℝ) (sampleRate : ℝ)
    (windowType : String) (_hne : signal ≠ []) (_hsr : 0 < sampleRate) (i : ℕ)
    (hi : i ≤ nextPow2 signal.length / 2) :
    (directPSD signal sampleRate windowType).psd.getD i 0
      = (2 * ((fft (directWindowed signal windowType)).re i ^ 2
          + (fft (directWindowed signal windowType)).im i ^ 2))
        / (sampleRate * (signal.length : ℝ)) := by
  unfold directPSD
  exact getD_map_range _ _ _ _ (by omega)

/-- Witness for C1 (amended) at the signal `[1, 1]`, `sampleRate = 1`,
rectangular window, DC bin. -/
theorem directPSD_bin_formula_witness :
    (directPSD [(1 : ℝ), 1] 1 "rectangular").psd.getD 0 0
      = (2 * ((fft (directWindowed [(1 : ℝ), 1] "rectangular")).re 0 ^ 2
          + (fft (directWindowed [(1 : ℝ), 1] "rectangular")).im 0 ^ 2))
        / (1 * (([(1 : ℝ), 1] : List ℝ).length : ℝ)) :=
  directPSD_bin_formula [(1 : ℝ), 1] 1 "rectangular" (by simp) (by norm_num) 0
    (Nat.zero_le _)


lemma getD_nonneg_of_forall {α : Type} [Zero α] [Preorder α] {L : List α}
    (h : ∀ q ∈ L, 0 ≤ q) (i : ℕ) :
    0 ≤ L.getD i 0 := by
  rcases Nat.lt_or_ge i L.length with hi | hi
  · rw [List.getD_eq_getElem L 0 hi]
    exact h _ (List.getElem_mem hi)
  · rw [List.getD_eq_default L 0 hi]

lemma set_nonneg_of_forall {L : List ℝ} {v : ℝ} (h : ∀ q ∈ L, 0 ≤ q)
    (hv : 0 ≤ v) (i : ℕ) : ∀ q ∈ L.set i v, 0 ≤ q := by
  intro q hq
  rcases List.mem_or_eq_of_mem_set hq with hq' | rfl
  · exact h q hq'
  · exact hv

lemma directPSD_psd_nonneg (signal : List ℝ) (sampleRate : ℝ)
    (windowType : String) (hsr : 0 ≤ sampleRate) :
    ∀ p ∈ (directPSD signal sampleRate windowType).psd, 0 ≤ p := by
  intro p hp
  unfold directPSD at hp
  simp only [List.mem_map, List.mem_range] at hp
  obtain ⟨i, _, rfl⟩ := hp
  exact div_nonneg (by positivity) (mul_nonneg hsr (Nat.cast_nonneg _))

lemma welchPSDMain_psd_nonneg (signal : List ℝ) (sampleRate : ℝ)
    (windowSize : ℕ) (overlap : ℝ) (windowType : String) (hsr : 0 ≤ sampleRate) :
    ∀ p ∈ (welchPSDMain signal sampleRate windowSize overlap windowType).psd,
      0 ≤ p := by
  unfold welchPSDMain
  simp only
  set N := nextPow2 windowSize with hN
  set window := getWindow windowSize windowType with hwin
  have hwp : 0 ≤ ((window.map (fun w => w * w)).sum) / (windowSize : ℝ) := by
    apply div_nonneg _ (Nat.cast_nonneg _)
    apply List.sum_nonneg
    intro x hx
    simp only [List.mem_map] at hx
    obtain ⟨w, _, rfl⟩ := hx
    exact mul_self_nonneg w
  have hL0 : ∀ q ∈ (List.range (N / 2 + 1)).map (fun i =>
      (2 * ∑ seg in Finset.range
          (welchNumSegments signal.length windowSize overlap).toNat,
        ((fft (welchSegData signal window windowSize N
            (seg * welchStep windowSize overlap))).re i ^ 2
          + (fft (welchSegData signal window windowSize N
            (seg * welchStep windowSize overlap))).im i ^ 2))
        / (((welchNumSegments signal.length windowSize overlap).toNat : ℝ)
            * sampleRate
            * (((window.map (fun w => w * w)).sum) / (windowSize : ℝ))
            * (windowSize : ℝ))), 0 ≤ q := by
    intro q hq
    simp only [List.mem_map, List.mem_range] at hq
    obtain ⟨i, _, rfl⟩ := hq
    apply div_nonneg
    · have : (0 : ℝ) ≤ ∑ seg in Finset.range
          (welchNumSegments signal.length windowSize overlap).toNat,
          ((fft (welchSegData signal window windowSize N
              (seg * welchStep windowSize overlap))).re i ^ 2
            + (fft (welchSegData signal window windowSize N
              (seg * welchStep windowSize overlap))).im i ^ 2) :=
        Finset.sum_nonneg (fun seg _ => by positivity)
      linarith
    · exact mul_nonneg (mul_nonneg (mul_nonneg (Nat.cast_nonneg _) hsr) hwp)
        (Nat.cast_nonneg _)
  have h1 := set_nonneg_of_forall hL0
    (div_nonneg (getD_nonneg_of_forall hL0 0) (by norm_num : (0:ℝ) ≤ 2)) 0
  split_ifs with hsplit
  · exact set_nonneg_of_forall h1
      (div_nonneg (getD_nonneg_of_forall h1 (N / 2)) (by norm_num : (0:ℝ) ≤ 2)) (N / 2)
  · exact h1

/-- Claim C2 (amended): for every real signal and `sampleRate > 0`, every
bin of the `psd` array returned by `welchPSD` and by `directPSD` is ≥ 0.
(The spectrogram clause of the original claim is false — its bins are log
powers in dB, which are negative for quiet signals; see the
counterexample.) -/
theorem psd_bins_nonneg (signal : List ℝ) (sampleRate : ℝ)
    (hsr : 0 < sampleRate) (windowSize : ℕ) (overlap : ℝ) (windowType : String) :
    (∀ p ∈ (welchPSD signal sampleRate windowSize overlap windowType).psd, 0 ≤ p)
      ∧ (∀ p ∈ (directPSD signal sampleRate windowType).psd, 0 ≤ p) := by
  refine ⟨?_, directPSD_psd_nonneg signal sampleRate windowType hsr.le⟩
  unfold welchPSD
  split_ifs with h
  · exact directPSD_psd_nonneg signal sampleRate windowType hsr.le
  · exact welchPSDMain_psd_nonneg signal sampleRate windowSize overlap
      windowType hsr.le

lemma nextPow2_one : nextPow2 1 = 1 := by
  simp [nextPow2, nextPow2Go]

/-- Witness for C2 (amended): concrete nonnegative DC bins for a one-sample
signal. -/
theorem psd_bins_nonneg_witness :
    0 ≤ (welchPSD [(1 : ℝ)] 1 2 (1/2) "rectangular").psd.getD 0 0 ∧
      0 ≤ (directPSD [(1 : ℝ)] 1 "rectangular").psd.getD 0 0 := by
  have h := psd_bins_nonneg [(1 : ℝ)] 1 (by norm_num) 2 (1/2) "rectangular"
  have hfall : welchNumSegments 1 2 (1/2) < 1 := by
    have hstep : welchStep 2 (1/2) = 1 := by
      unfold welchStep
      norm_num
    unfold welchNumSegments
    rw [hstep]
    norm_num
  have hW : welchPSD [(1 : ℝ)] 1 2 (1/2) "rectangular"
      = directPSD [(1 : ℝ)] 1 "rectangular" := by
    unfold welchPSD
    rw [if_pos (by rw [show ([(1 : ℝ)] : List ℝ).length = 1 from rfl]; exact hfall)]
  have hlen : 0 < (directPSD [(1 : ℝ)] 1 "rectangular").psd.length := by
    unfold directPSD
    simp [nextPow2_one]
  constructor
  · refine h.1 _ ?_
    rw [hW, List.getD_eq_getElem _ 0 hlen]
    exact List.getElem_mem hlen
  · refine h.2 _ ?_
    rw [List.getD_eq_getElem _ 0 hlen]
    exact List.getElem_mem hlen


lemma specSegData_zeroPair (win : List ℝ) (start : ℕ) :
    specSegData [(0 : ℝ), 0] win 2 2 start = [0, 0] := by
  simp [specSegData, zeroPair_getD, zeroPair_getElem,
    show List.range 2 = [0, 1] from rfl]

/-- Counterexample to C2's spectrogram clause: on the all-zero two-sample
signal (`sampleRate = 2`, `windowSize = 2`, default overlap `0.75`,
`maxFreq = 50`), the first spectrogram bin is `10*log10(1e-20) < 0`:
spectrogram bins are dB log powers and can be negative. -/
theorem spectrogram_bin_negative :
    ((computeSpectrogram [(0 : ℝ), 0] 2 2 (3/4) 50).spectrogram.getD 0 []).getD 0 0
      < 0 := by
  have hval : ((computeSpectrogram [(0 : ℝ), 0] 2 2 (3/4) 50).spectrogram.getD 0
      []).getD 0 0 = 10 * Real.logb 10 ((0 : ℝ) / 2 + 1e-20) := by
    unfold computeSpectrogram
    norm_num [nextPow2_two, specSegData_zeroPair, fft_zeroPair_re,
      fft_zeroPair_im, show List.range 2 = [0, 1] from rfl,
      show List.range 1 = [0] from rfl]
  rw [hval]
  have hlog : Real.logb 10 ((0 : ℝ) / 2 + 1e-20) < 0 := by
    apply Real.logb_neg (by norm_num) (by norm_num) (by norm_num)
  exact mul_neg_of_pos_of_neg (by norm_num) hlog


/-- The five EEG band powers returned by `computeBandPowers` (field order
delta, theta, alpha, beta, gamma as in the source's `bands` object). -/
structure BandPowers where
  delta : ℚ
  theta : ℚ
  alpha : ℚ
  beta : ℚ
  gamma : ℚ

/-- Source `computeBandPowers`'s bin spacing:
`freqRes = freqs.length > 1 ? freqs[1] - freqs[0] : 1`. -/
def bandFreqRes (freqs : List ℚ) : ℚ :=
  if 1 < freqs.length then freqs.getD 1 0 - freqs.getD 0 0 else 1

/-- The accumulated power of one band: the source loops over all bins and
adds `psd[i] * freqRes` to each band whose half-open range `[low, high)`
contains `freqs[i]`; per band that running accumulation is this sum. -/
def bandPowerSum (freqs psd : List ℚ) (freqRes low high : ℚ) : ℚ :=
  ∑ i in Finset.range freqs.length,
    if low ≤ freqs.getD i 0 ∧ freqs.getD i 0 < high
    then psd.getD i 0 * freqRes else 0

/-- Source `computeBandPowers(freqs, psd)` with the fixed band table
delta `[0.5, 4)`, theta `[4, 8)`, alpha `[8, 13)`, beta `[13, 30)`,
gamma `[30, 100)`. -/
def computeBandPowers (freqs psd : List ℚ) : BandPowers :=
  { delta := bandPowerSum freqs psd (bandFreqRes freqs) 0.5 4,
    theta := bandPowerSum freqs psd (bandFreqRes freqs) 4 8,
    alpha := bandPowerSum freqs psd (bandFreqRes freqs) 8 13,
    beta := bandPowerSum freqs psd (bandFreqRes freqs) 13 30,
    gamma := bandPowerSum freqs psd (bandFreqRes freqs) 30 100 }

/-- The total integrated PSD power over `[0, 100]` Hz, stated by the
specification's band-power additivity property as the comparison quantity:
the sum of `psd[i] * freqRes` over all bins with `0 ≤ freqs[i] ≤ 100`,
using the same bin spacing as `computeBandPowers`. -/
def specTotalPower (freqs psd : List ℚ) : ℚ :=
  ∑ i in Finset.range freqs.length,
    if 0 ≤ freqs.getD i 0 ∧ freqs.getD i 0 ≤ 100
    then psd.getD i 0 * bandFreqRes freqs else 0

lemma band_bin_le (f p r : ℚ) (hp : 0 ≤ p) (hr : 0 ≤ r) :
    ((if 0.5 ≤ f ∧ f < 4 then p * r else 0)
      + (if 4 ≤ f ∧ f < 8 then p * r else 0)
      + (if 8 ≤ f ∧ f < 13 then p * r else 0)
      + (if 13 ≤ f ∧ f < 30 then p * r else 0)
      + (if 30 ≤ f ∧ f < 100 then p * r else 0))
      ≤ (if 0 ≤ f ∧ f ≤ 100 then p * r else 0) := by
  have hpr : 0 ≤ p * r := mul_nonneg hp hr
  by_cases h0 : 0 ≤ f ∧ f ≤ 100
  · rw [if_pos h0]
    split_ifs <;> linarith
  · rw [if_neg h0]
    rw [if_neg (fun hc => h0 ⟨by linarith [hc.1], by linarith [hc.2]⟩),
      if_neg (fun hc => h0 ⟨by linarith [hc.1], by linarith [hc.2]⟩),
      if_neg (fun hc => h0 ⟨by linarith [hc.1], by linarith [hc.2]⟩),
      if_neg (fun hc => h0 ⟨by linarith [hc.1], by linarith [hc.2]⟩),
      if_neg (fun hc => h0 ⟨by linarith [hc.1], by linarith [hc.2]⟩)]
    norm_num

/-- Claim C6: for equal-length `freqs`/`psd` with nonnegative `psd` entries
and uniform nonnegative bin spacing `freqRes`, the sum of the five band
powers of `computeBandPowers` is at most the total integrated PSD power
over `[0, 100]` Hz, because the five bands are disjoint half-open
subintervals of `[0, 100]`. -/
theorem bandPowers_sum_le_total (freqs psd : List ℚ) (freqRes : ℚ)
    (hlen : freqs.length = psd.length) (hpsd : ∀ p ∈ psd, 0 ≤ p)
    (hres : 0 ≤ freqRes)
    (huni : ∀ i, i + 1 < freqs.length →
      freqs.getD (i + 1) 0 - freqs.getD i 0 = freqRes) :
    (computeBandPowers freqs psd).delta + (computeBandPowers freqs psd).theta
        + (computeBandPowers freqs psd).alpha + (computeBandPowers freqs psd).beta
        + (computeBandPowers freqs psd).gamma
      ≤ specTotalPower freqs psd := by
  have hfr : 0 ≤ bandFreqRes freqs := by
    unfold bandFreqRes
    split_ifs with h
    · rw [show freqs.getD 1 0 = freqs.getD (0 + 1) 0 from rfl, huni 0 (by omega)]
      exact hres
    · norm_num
  simp only [computeBandPowers]
  unfold bandPowerSum specTotalPower
  rw [← Finset.sum_add_distrib, ← Finset.sum_add_distrib, ← Finset.sum_add_distrib,
    ← Finset.sum_add_distrib]
  refine Finset.sum_le_sum (fun i _ => ?_)
  exact band_bin_le (freqs.getD i 0) (psd.getD i 0) (bandFreqRes freqs)
    (getD_nonneg_of_forall hpsd i) hfr

/-- Witness for C6 at `freqs = [0, 1, 2]`, `psd = [1, 1, 1]`,
`freqRes = 1`. -/
theorem bandPowers_sum_le_total_witness :
    (computeBandPowers [0, 1, 2] [1, 1, 1]).delta
        + (computeBandPowers [0, 1, 2] [1, 1, 1]).theta
        + (computeBandPowers [0, 1, 2] [1, 1, 1]).alpha
        + (computeBandPowers [0, 1, 2] [1, 1, 1]).beta
        + (computeBandPowers [0, 1, 2] [1, 1, 1]).gamma
      ≤ specTotalPower [0, 1, 2] [1, 1, 1] := by
  refine bandPowers_sum_le_total [0, 1, 2] [1, 1, 1] 1 rfl (by decide) (by decide)
    (fun i hi => ?_)
  have hi3 : i + 1 < 3 := by simpa using hi
  have hi2 : i < 2 := by omega
  interval_cases i <;> norm_num [List.getD]

/-- Claim C10: when `freqs` has fewer than two entries the bin spacing
falls back to 1; in particular for a single bin `freqs = [f]`,
`psd = [p]` with `f` inside a band's half-open range, that band's power is
exactly `p * 1 = p`.  (`computeBandPowers` is a total function on all
list lengths by construction.) -/
theorem bandPowers_single_bin (f p : ℚ) :
    bandFreqRes [f] = 1 ∧
      (0.5 ≤ f → f < 4 → (computeBandPowers [f] [p]).delta = p) ∧
      (4 ≤ f → f < 8 → (computeBandPowers [f] [p]).theta = p) ∧
      (8 ≤ f → f < 13 → (computeBandPowers [f] [p]).alpha = p) ∧
      (13 ≤ f → f < 30 → (computeBandPowers [f] [p]).beta = p) ∧
      (30 ≤ f → f < 100 → (computeBandPowers [f] [p]).gamma = p) := by
  have hfr : bandFreqRes [f] = 1 := by
    unfold bandFreqRes
    norm_num
  refine ⟨hfr, ?_, ?_, ?_, ?_, ?_⟩ <;>
    · intro h1 h2
      show bandPowerSum [f] [p] (bandFreqRes [f]) _ _ = p
      unfold bandPowerSum
      rw [hfr]
      simp only [List.length_singleton, Finset.sum_range_one, List.getD_cons_zero]
      rw [if_pos ⟨h1, h2⟩, mul_one]

/-- Witness for C10: a 2 Hz single bin lands in the delta band with power
equal to the single `psd` entry. -/
theorem bandPowers_single_bin_witness :
    bandFreqRes [(2 : ℚ)] = 1 ∧ (computeBandPowers [(2 : ℚ)] [(5 : ℚ)]).delta = 5 :=
  ⟨(bandPowers_single_bin 2 5).1,
    (bandPowers_single_bin 2 5).2.1 (by norm_num) (by norm_num)⟩


/-- The statistics record returned by `computeStatistics` (`min`/`max` are
`minVal`/`maxVal` here). -/
structure StatsRecord where
  mean : ℝ
  std : ℝ
  variance : ℝ
  rms : ℝ
  minVal : ℝ
  maxVal : ℝ
  peakToPeak : ℝ
  skewness : ℝ
  kurtosis : ℝ
  zeroCrossings : ℕ

/-- Source `computeStatistics(signal)`.  `n === 0` returns the empty object
`{}`, modelled as `none`.  The single accumulation pass becomes the
corresponding list folds: the running `min`/`max` start from
`Infinity`/`-Infinity`, which over a nonempty list is its minimum/maximum;
the zero-crossing test at index `i` compares `signal[i]` (second component)
with `signal[i-1]` (first component). -/
noncomputable def computeStatistics (signal : List ℝ) : Option StatsRecord :=
  if signal.length = 0 then none
  else
    let sum := signal.sum
    let sumSq := (signal.map (fun x => x * x)).sum
    let minVal := (signal.min?).getD 0
    let maxVal := (signal.max?).getD 0
    let zeroCrossings := (signal.zip signal.tail).countP
      (fun q => decide ((0 ≤ q.2 ∧ q.1 < 0) ∨ (q.2 < 0 ∧ 0 ≤ q.1)))
    let mean := sum / (signal.length : ℝ)
    let variance := sumSq / (signal.length : ℝ) - mean * mean
    let std := Real.sqrt (max 0 variance)
    let rms := Real.sqrt (sumSq / (signal.length : ℝ))
    let m3 := (signal.map (fun x => (x - mean) * (x - mean) * (x - mean))).sum
    let m4 := (signal.map (fun x =>
      (x - mean) * (x - mean) * (x - mean) * (x - mean))).sum
    let skewness := if std > 0 then (m3 / (signal.length : ℝ)) / (std * std * std)
      else 0
    let kurtosis := if std > 0 then
      (m4 / (signal.length : ℝ)) / (std * std * std * std) - 3 else 0
    some ⟨mean, std, variance, rms, minVal, maxVal, maxVal - minVal,
      skewness, kurtosis, zeroCrossings⟩

/-- Claim C7: on a constant signal of length at least 3,
`computeStatistics` yields `std = 0`, `variance = 0`, `skewness = 0`,
`kurtosis = 0` and `zeroCrossings = 0`. -/
theorem computeStatistics_const (c : ℝ) (n : ℕ) (hn : 3 ≤ n) :
    ∃ r, computeStatistics (List.replicate n c) = some r ∧
      r.std = 0 ∧ r.variance = 0 ∧ r.skewness = 0 ∧ r.kurtosis = 0 ∧
      r.zeroCrossings = 0 := by
  have hne : ¬ (List.replicate n c).length = 0 := by
    rw [List.length_replicate]
    omega
  have hnne : ((n : ℕ) : ℝ) ≠ 0 := Nat.cast_ne_zero.mpr (by omega)
  have harg : (n : ℝ) * (c * c) / (n : ℝ) - ((n : ℝ) * c / (n : ℝ)) * ((n : ℝ) * c / (n : ℝ)) = 0 := by
    field_simp
  have hzc : ((List.replicate n c).zip (List.replicate n c).tail).countP
      (fun q => decide ((0 ≤ q.2 ∧ q.1 < 0) ∨ (q.2 < 0 ∧ 0 ≤ q.1))) = 0 := by
    apply List.countP_eq_zero.mpr
    intro a ha
    rw [List.tail_replicate, List.zip_replicate] at ha
    have haeq : a = (c, c) := List.eq_of_mem_replicate ha
    subst haeq
    simp only [decide_eq_true_eq]
    rcases le_or_lt 0 c with hc | hc
    · rintro (⟨_, h⟩ | ⟨h, _⟩) <;> linarith
    · rintro (⟨h, _⟩ | ⟨_, h⟩) <;> linarith
  unfold computeStatistics
  rw [if_neg hne]
  simp only [List.sum_replicate, List.map_replicate, List.length_replicate,
    nsmul_eq_mul, smul_eq_mul]
  rw [harg, hzc]
  refine ⟨_, rfl, ?_, ?_, ?_, ?_, rfl⟩ <;>
    simp

/-- Witness for C7 at the constant signal `[1, 1, 1]`. -/
theorem computeStatistics_const_witness :
    ∃ r, computeStatistics (List.replicate 3 (1 : ℝ)) = some r ∧
      r.std = 0 ∧ r.variance = 0 ∧ r.skewness = 0 ∧ r.kurtosis = 0 ∧
      r.zeroCrossings = 0 :=
  computeStatistics_const 1 3 le_rfl


/-- Character-wise upper-casing, modelling `label.toUpperCase()` on the
ASCII electrode labels used by the montage code. -/
def jsToUpper (s : String) : String := ⟨s.data.map Char.toUpper⟩

/-- The fixed longitudinal bipolar chain list of `bipolarMontage`. -/
def bipolarChains : List (String × String) :=
  [("Fp1", "F3"),
   ("F3", "C3"),
   ("C3", "P3"),
   ("P3", "O1"),
   ("Fp2", "F4"),
   ("F4", "C4"),
   ("C4", "P4"),
   ("P4", "O2"),
   ("Fp1", "F7"),
   ("F7", "T3"),
   ("T3", "T5"),
   ("T5", "O1"),
   ("Fp2", "F8"),
   ("F8", "T4"),
   ("T4", "T6"),
   ("T6", "O2"),
   ("Fz", "Cz"),
   ("Cz", "Pz")]

/-- The `labelMap` lookup of `bipolarMontage`: labels are keyed by their
upper-cased form, and `forEach` overwrites, so the last matching index
wins. -/
def lookupLabel (channelLabels : List String) (key : String) : Option ℕ :=
  ((channelLabels.enum.filter
    (fun q => jsToUpper q.2 == jsToUpper key)).getLast?).map (fun q => q.1)

/-- The elementwise channel difference built by `bipolarMontage`: the
length comes from the first channel, and each entry is
`channelData[idx1][i] - channelData[idx2][i]`. -/
def elemDiffAt (d1 d2 : List ℚ) : List ℚ :=
  (List.range d1.length).map (fun i => d1.getD i 0 - d2.getD i 0)

/-- Source `bipolarMontage(channelData, channelLabels)`: walk the fixed
chain list, emitting a difference channel labelled `ch1-ch2` for every
pair both of whose labels resolve; if none resolves, fall back to
sequential pair differences. -/
def bipolarMontage (channelData : List (List ℚ)) (channelLabels : List String) :
    List (List ℚ) × List String :=
  let acc := bipolarChains.foldl (fun acc q =>
    match lookupLabel channelLabels q.1, lookupLabel channelLabels q.2 with
    | some i1, some i2 =>
        (acc.1 ++ [elemDiffAt (channelData.getD i1 []) (channelData.getD i2 [])],
         acc.2 ++ [q.1 ++ "-" ++ q.2])
    | _, _ => acc) ([], [])
  if acc.1.length = 0 then
    ((List.range (channelData.length - 1)).map (fun i =>
        elemDiffAt (channelData.getD i []) (channelData.getD (i + 1) [])),
     (List.range (channelData.length - 1)).map (fun i =>
        channelLabels.getD i "" ++ "-" ++ channelLabels.getD (i + 1) ""))
  else acc

lemma elemDiffAt_eq_zipWith (d1 d2 : List ℚ) (h : d1.length ≤ d2.length) :
    elemDiffAt d1 d2 = List.zipWith (fun a b => a - b) d1 d2 := by
  induction d1 generalizing d2 with
  | nil => simp [elemDiffAt]
  | cons a t ih =>
    cases d2 with
    | nil => simp at h
    | cons b u =>
      unfold elemDiffAt
      rw [List.length_cons, List.range_succ_eq_map, List.map_cons, List.map_map]
      simp only [List.getD_cons_zero, List.zipWith_cons_cons]
      congr 1
      have hrec := ih u (by simpa using h)
      unfold elemDiffAt at hrec
      rw [← hrec]
      refine List.map_congr_left (fun i _ => ?_)
      simp [Function.comp, List.getD_cons_succ]

/-- Claim C8: on labels `['Fp1','F3','C3']` with three equal-length
channels, `bipolarMontage` produces exactly two channels, labelled
`Fp1-F3` and `F3-C3` in that order, whose data are the elementwise
differences of the corresponding input channels. -/
theorem bipolarMontage_standard (d1 d2 d3 : List ℚ)
    (h12 : d1.length ≤ d2.length) (h23 : d2.length ≤ d3.length) :
    bipolarMontage [d1, d2, d3] ["Fp1", "F3", "C3"]
      = ([List.zipWith (fun a b => a - b) d1 d2,
          List.zipWith (fun a b => a - b) d2 d3],
         ["Fp1-F3", "F3-C3"]) := by
  have hkFp1 : lookupLabel ["Fp1", "F3", "C3"] "Fp1" = some 0 := rfl
  have hkF3 : lookupLabel ["Fp1", "F3", "C3"] "F3" = some 1 := rfl
  have hkC3 : lookupLabel ["Fp1", "F3", "C3"] "C3" = some 2 := rfl
  have hkP3 : lookupLabel ["Fp1", "F3", "C3"] "P3" = none := rfl
  have hkO1 : lookupLabel ["Fp1", "F3", "C3"] "O1" = none := rfl
  have hkFp2 : lookupLabel ["Fp1", "F3", "C3"] "Fp2" = none := rfl
  have hkF4 : lookupLabel ["Fp1", "F3", "C3"] "F4" = none := rfl
  have hkC4 : lookupLabel ["Fp1", "F3", "C3"] "C4" = none := rfl
  have hkP4 : lookupLabel ["Fp1", "F3", "C3"] "P4" = none := rfl
  have hkO2 : lookupLabel ["Fp1", "F3", "C3"] "O2" = none := rfl
  have hkF7 : lookupLabel ["Fp1", "F3", "C3"] "F7" = none := rfl
  have hkT3 : lookupLabel ["Fp1", "F3", "C3"] "T3" = none := rfl
  have hkT5 : lookupLabel ["Fp1", "F3", "C3"] "T5" = none := rfl
  have hkF8 : lookupLabel ["Fp1", "F3", "C3"] "F8" = none := rfl
  have hkT4 : lookupLabel ["Fp1", "F3", "C3"] "T4" = none := rfl
  have hkT6 : lookupLabel ["Fp1", "F3", "C3"] "T6" = none := rfl
  have hkFz : lookupLabel ["Fp1", "F3", "C3"] "Fz" = none := rfl
  have hkCz : lookupLabel ["Fp1", "F3", "C3"] "Cz" = none := rfl
  have hkPz : lookupLabel ["Fp1", "F3", "C3"] "Pz" = none := rfl
  unfold bipolarMontage bipolarChains
  simp only [List.foldl_cons, List.foldl_nil, hkFp1, hkF3, hkC3, hkP3, hkO1, hkFp2, hkF4, hkC4, hkP4, hkO2, hkF7, hkT3, hkT5, hkF8, hkT4, hkT6, hkFz, hkCz, hkPz]
  simp only [List.getD_cons_zero, List.getD_cons_succ, List.nil_append,
    List.cons_append, List.length_cons, List.length_nil]
  rw [elemDiffAt_eq_zipWith d1 d2 h12, elemDiffAt_eq_zipWith d2 d3 h23]
  simp

/-- Witness for C8 at channels `[1, 2]`, `[3, 5]`, `[10, 20]`. -/
theorem bipolarMontage_standard_witness :
    bipolarMontage [[(1 : Rat), 2], [3, 5], [10, 20]] ["Fp1", "F3", "C3"]
      = ([List.zipWith (fun a b => a - b) [(1 : Rat), 2] [3, 5],
          List.zipWith (fun a b => a - b) [(3 : Rat), 5] [10, 20]],
         ["Fp1-F3", "F3-C3"]) :=
  bipolarMontage_standard [(1 : Rat), 2] [3, 5] [10, 20] (by norm_num) (by norm_num)


/-- Biquad coefficient record `{b0, b1, b2, a1, a2}` (`a0` normalized
away). -/
structure BiquadCoeffs where
  b0 : ℝ
  b1 : ℝ
  b2 : ℝ
  a1 : ℝ
  a2 : ℝ

/-- Source `_biquadCoeffs(sampleRate, freq, type, Q)`: RBJ lowpass/highpass
biquad formulas; every `type` other than `'lowpass'` takes the highpass
branch, as in the source's `else`. -/
noncomputable def biquadCoeffs (sampleRate freq : ℝ) (type : String) (Q : ℝ) :
    BiquadCoeffs :=
  let w0 := 2 * Real.pi * freq / sampleRate
  let alpha := Real.sin w0 / (2 * Q)
  let cosW0 := Real.cos w0
  let a0 := 1 + alpha
  if type = "lowpass" then
    ⟨((1 - cosW0) / 2) / a0, (1 - cosW0) / a0, ((1 - cosW0) / 2) / a0,
      (-2 * cosW0) / a0, (1 - alpha) / a0⟩
  else
    ⟨((1 + cosW0) / 2) / a0, (-(1 + cosW0)) / a0, ((1 + cosW0) / 2) / a0,
      (-2 * cosW0) / a0, (1 - alpha) / a0⟩

/-- Source `_applyBiquad(signal, c)`: direct-form-I recursion with state
`(x1, x2, y1, y2)` initialized to zeros. -/
noncomputable def applyBiquad (c : BiquadCoeffs) :
    List ℝ → ℝ → ℝ → ℝ → ℝ → List ℝ
  | [], _, _, _, _ => []
  | x0 :: rest, x1, x2, y1, y2 =>
    let y0 := c.b0 * x0 + c.b1 * x1 + c.b2 * x2 - c.a1 * y1 - c.a2 * y2
    y0 :: applyBiquad c rest x0 x1 y0 y1

/-- Source `_biquadCascade(signal, sampleRate, freq, type, order)`:
`ceil(order/2)` second-order sections, each applied forward, then
backward over the reversed signal (zero-phase). -/
noncomputable def biquadCascade (signal : List ℝ) (sampleRate freq : ℝ)
    (type : String) (order : ℕ) : List ℝ :=
  (List.range ((order + 1) / 2)).foldl (fun data sec =>
    let Q := 1 / (2 * Real.cos (Real.pi * (2 * sec + 1) / (2 * order)))
    let coeffs := biquadCoeffs sampleRate freq type Q
    ((applyBiquad coeffs ((applyBiquad coeffs data 0 0 0 0).reverse)
      0 0 0 0).reverse)) signal

/-- Source `_notchFilter(signal, sampleRate, freq, bandwidth)`. -/
noncomputable def notchFilter (signal : List ℝ) (sampleRate freq bandwidth : ℝ) :
    List ℝ :=
  let w0 := 2 * Real.pi * freq / sampleRate
  let Q := freq / bandwidth
  let alpha := Real.sin w0 / (2 * Q)
  let cosW0 := Real.cos w0
  let a0 := 1 + alpha
  let c : BiquadCoeffs :=
    ⟨1 / a0, -2 * cosW0 / a0, 1 / a0, -2 * cosW0 / a0, (1 - alpha) / a0⟩
  ((applyBiquad c ((applyBiquad c signal 0 0 0 0).reverse) 0 0 0 0).reverse)

/-- Source `butterworth`'s cutoff clamp
`min(max(f, 1e-6), nyquist * 0.999)`.  The `!isFinite(f)` branch is dead in
this embedding: every real number is finite. -/
noncomputable def clampFreq (nyquist f : ℝ) : ℝ :=
  min (max f 1e-6) (nyquist * 0.999)

/-- Source `butterworth(signal, sampleRate, lowCut, highCut, order, type)`:
clamp both cutoffs, swap them for a bandpass when `low > high`, then
dispatch on the filter type (unknown types return the input unchanged). -/
noncomputable def butterworth (signal : List ℝ) (sampleRate lowCut highCut : ℝ)
    (order : ℕ) (type : String) : List ℝ :=
  let nyquist := sampleRate / 2
  let low0 := clampFreq nyquist lowCut
  let high0 := clampFreq nyquist highCut
  let low := if type = "bandpass" ∧ high0 < low0 then high0 else low0
  let high := if type = "bandpass" ∧ high0 < low0 then low0 else high0
  if type = "bandpass" then
    biquadCascade (biquadCascade signal sampleRate low "highpass" order)
      sampleRate high "lowpass" order
  else if type = "highpass" then
    biquadCascade signal sampleRate low "highpass" order
  else if type = "lowpass" then
    biquadCascade signal sampleRate high "lowpass" order
  else if type = "notch" then
    notchFilter signal sampleRate low 2
  else signal

/-- Claim C5: for every signal, `sampleRate > 0`, order, and cutoff pair,
the bandpass filter output is invariant under swapping the two cutoff
arguments (the source sorts the clamped cutoffs before filtering). -/
theorem butterworth_bandpass_swap (signal : List ℝ) (sampleRate a b : ℝ)
    (order : ℕ) (_hsr : 0 < sampleRate) :
    butterworth signal sampleRate a b order "bandpass"
      = butterworth signal sampleRate b a order "bandpass" := by
  unfold butterworth
  dsimp only
  have hlow : ∀ (A B : ℝ),
      (if ("bandpass" : String) = "bandpass" ∧ B < A then B else A)
        = if ("bandpass" : String) = "bandpass" ∧ A < B then A else B := by
    intro A B
    split_ifs with h1 h2 h2 <;> first
      | rfl
      | (exfalso; rcases h1 with ⟨-, h1⟩; rcases h2 with ⟨-, h2⟩; linarith)
      | (rcases lt_trichotomy A B with h | h | h <;>
          first
            | (exfalso; exact h1 ⟨rfl, by linarith⟩)
            | (exfalso; exact h2 ⟨rfl, by linarith⟩)
            | linarith)
  have hhigh : ∀ (A B : ℝ),
      (if ("bandpass" : String) = "bandpass" ∧ B < A then A else B)
        = if ("bandpass" : String) = "bandpass" ∧ A < B then B else A := by
    intro A B
    split_ifs with h1 h2 h2 <;> first
      | rfl
      | (exfalso; rcases h1 with ⟨-, h1⟩; rcases h2 with ⟨-, h2⟩; linarith)
      | (rcases lt_trichotomy A B with h | h | h <;>
          first
            | (exfalso; exact h1 ⟨rfl, by linarith⟩)
            | (exfalso; exact h2 ⟨rfl, by linarith⟩)
            | linarith)
  rw [hlow (clampFreq (sampleRate / 2) a) (clampFreq (sampleRate / 2) b),
    hhigh (clampFreq (sampleRate / 2) a) (clampFreq (sampleRate / 2) b)]

/-- Witness for C5 at a concrete signal and swapped cutoffs `(30, 5)`. -/
theorem butterworth_bandpass_swap_witness :
    butterworth [(1 : ℝ), 2, 3] 100 30 5 4 "bandpass"
      = butterworth [(1 : ℝ), 2, 3] 100 5 30 4 "bandpass" :=
  butterworth_bandpass_swap [(1 : ℝ), 2, 3] 100 30 5 4 (by norm_num)


/-- Source `_cascadeResponse(w, sampleRate, freq, type, order)`: product of
the per-section biquad magnitudes at `e^(jw)`; a zero denominator
contributes factor 0. -/
noncomputable def cascadeResponse (w sampleRate freq : ℝ) (type : String)
    (order : ℕ) : ℝ :=
  (List.range ((order + 1) / 2)).foldl (fun totalMag sec =>
    let Q := 1 / (2 * Real.cos (Real.pi * (2 * sec + 1) / (2 * order)))
    let c := biquadCoeffs sampleRate freq type Q
    let numRe := c.b0 + c.b1 * Real.cos w + c.b2 * Real.cos (2 * w)
    let numIm := -(c.b1 * Real.sin w + c.b2 * Real.sin (2 * w))
    let denRe := 1 + c.a1 * Real.cos w + c.a2 * Real.cos (2 * w)
    let denIm := -(c.a1 * Real.sin w + c.a2 * Real.sin (2 * w))
    let numMag := Real.sqrt (numRe * numRe + numIm * numIm)
    let denMag := Real.sqrt (denRe * denRe + denIm * denIm)
    totalMag * (if 0 < denMag then numMag / denMag else 0)) 1

/-- Source `_notchResponse(w, sampleRate, freq, bandwidth)`. -/
noncomputable def notchResponse (w sampleRate freq bandwidth : ℝ) : ℝ :=
  let w0 := 2 * Real.pi * freq / sampleRate
  let Q := freq / bandwidth
  let alpha := Real.sin w0 / (2 * Q)
  let cosW0 := Real.cos w0
  let a0 := 1 + alpha
  let b0 := 1 / a0
  let b1 := -2 * cosW0 / a0
  let b2 := 1 / a0
  let a1 := -2 * cosW0 / a0
  let a2 := (1 - alpha) / a0
  let numRe := b0 + b1 * Real.cos w + b2 * Real.cos (2 * w)
  let numIm := -(b1 * Real.sin w + b2 * Real.sin (2 * w))
  let denRe := 1 + a1 * Real.cos w + a2 * Real.cos (2 * w)
  let denIm := -(a1 * Real.sin w + a2 * Real.sin (2 * w))
  let numMag := Real.sqrt (numRe * numRe + numIm * numIm)
  let denMag := Real.sqrt (denRe * denRe + denIm * denIm)
  if 0 < denMag then numMag / denMag else 0

/-- Source `computeFrequencyResponse(sampleRate, lowCut, highCut, order,
type)`: the analytic cascade magnitude at 512 log-spaced frequencies from
0.1 Hz to Nyquist; the squared magnitude (zero-phase doubling) is floored
at `1e-10` before `20*log10`. -/
noncomputable def computeFrequencyResponse (sampleRate lowCut highCut : ℝ)
    (order : ℕ) (type : String) : List ℝ × List ℝ :=
  let nyquist := sampleRate / 2
  let freqs := (List.range 512).map (fun (i : ℕ) =>
    0.1 * Real.rpow (nyquist / 0.1) ((i : ℝ) / ((512 : ℝ) - 1)))
  let magnitude := (List.range 512).map (fun (i : ℕ) =>
    let f := 0.1 * Real.rpow (nyquist / 0.1) ((i : ℝ) / ((512 : ℝ) - 1))
    let w := 2 * Real.pi * f / sampleRate
    let totalMag : ℝ :=
      if type = "bandpass" then
        1 * cascadeResponse w sampleRate lowCut "highpass" order
          * cascadeResponse w sampleRate highCut "lowpass" order
      else if type = "highpass" then
        1 * cascadeResponse w sampleRate lowCut "highpass" order
      else if type = "lowpass" then
        1 * cascadeResponse w sampleRate highCut "lowpass" order
      else if type = "notch" then
        1 * notchResponse w sampleRate lowCut 2
      else 1
    20 * Real.logb 10 (max (totalMag * totalMag) 1e-10))
  (freqs, magnitude)

/-- Claim C9: every magnitude returned by `computeFrequencyResponse` is at
least `20*log10(1e-10) = -200` dB, because the squared cascade magnitude
is floored at `1e-10` before the base-10 logarithm; in particular the
logarithm's argument is never zero. -/
theorem computeFrequencyResponse_lower_bound (sampleRate lowCut highCut : ℝ)
    (order : ℕ) (type : String) (_hsr : 0 < sampleRate) :
    ∀ m ∈ (computeFrequencyResponse sampleRate lowCut highCut order type).2,
      -200 ≤ m := by
  have key : ∀ t : ℝ, -200 ≤ 20 * Real.logb 10 (max (t * t) 1e-10) := by
    intro t
    have hpow : (1e-10 : ℝ) = (10 : ℝ) ^ ((-10 : ℤ) : ℝ) := by
      rw [Real.rpow_intCast]
      norm_num
    have h3 : Real.logb 10 (1e-10 : ℝ) = -10 := by
      rw [hpow, Real.logb_rpow (by norm_num) (by norm_num)]
      norm_num
    have h2 : Real.logb 10 (1e-10 : ℝ) ≤ Real.logb 10 (max (t * t) (1e-10 : ℝ)) :=
      Real.logb_le_logb_of_le (by norm_num) (by norm_num) (le_max_right _ _)
    rw [h3] at h2
    linarith
  intro m hm
  unfold computeFrequencyResponse at hm
  dsimp only at hm
  simp only [List.mem_map, List.mem_range] at hm
  obtain ⟨i, -, rfl⟩ := hm
  exact key _

/-- Witness for C9: the first magnitude bin of a notch configuration at
`sampleRate = 2` is at least -200 dB. -/
theorem computeFrequencyResponse_lower_bound_witness :
    (-200 : ℝ) ≤ (computeFrequencyResponse 2 1 1 4 "notch").2.getD 0 0 := by
  have hlen : 0 < (computeFrequencyResponse 2 1 1 4 "notch").2.length := by
    unfold computeFrequencyResponse
    dsimp only
    rw [List.length_map, List.length_range]
    norm_num
  refine computeFrequencyResponse_lower_bound 2 1 1 4 "notch" (by norm_num) _ ?_
  rw [List.getD_eq_getElem _ _ hlen]
  exact List.getElem_mem hlen

end EEGAnalysis
